import Mathlib

/-!
Verification of the number-notation → two-track MIDI converter
(`number_to_midi.py`): a shallow embedding of the notation decoder,
pre-validator, clef splitter, sustain merger, track encoder and
post-creation validator, together with theorems settling the spec's claims.
-/

/-! ## Definitions: shallow embedding of the program -/

/-- The fixed degree-string → MIDI pitch table (`NUMBER_TO_MIDI_MAP`). -/
def NUMBER_TO_MIDI_MAP : List (String × Nat) :=
  [("1", 41), ("2", 43), ("3", 48), ("4", 50), ("5", 52), ("6", 53),
   ("7", 55), ("8", 57), ("9", 58), ("10", 59), ("11", 60), ("12", 61),
   ("13", 62), ("14", 63), ("15", 64), ("16", 65), ("17", 66), ("18", 67),
   ("19", 68), ("20", 69), ("21", 70), ("22", 71), ("23", 72), ("24", 73),
   ("25", 74), ("26", 75), ("27", 76), ("28", 77), ("29", 79), ("30", 81)]

/-- Ticks of one atomic (8th-note) slot (`TICKS_PER_8TH_NOTE`). -/
def TICKS_PER_8TH_NOTE : Nat := 240

/-- Python's `str.strip()` on the underlying character list: drop
whitespace from both ends. -/
def pyStrip (l : List Char) : List Char :=
  ((l.dropWhile Char.isWhitespace).reverse.dropWhile Char.isWhitespace).reverse

/-- Splitting a character list at every character satisfying `p`,
keeping empty pieces: the helper behind Python's `str.split(sep)`
and (after dropping empties) `str.split()`. -/
def splitCharAux (p : Char → Bool) : List Char → List (List Char)
  | [] => [[]]
  | a :: rest =>
    let r := splitCharAux p rest
    if p a then [] :: r
    else
      match r with
      | [] => [[a]]
      | h :: t => (a :: h) :: t

/-- Python's whitespace `str.split()`: whitespace-delimited tokens, with
no empty tokens. -/
def splitWs (l : List Char) : List (List Char) :=
  (splitCharAux Char.isWhitespace l).filter (fun t => t ≠ [])

/-- Model of `number_to_midi`: strip the token, look it up in the table; `none`
(with a warning side effect in the source) when absent. -/
def number_to_midi (num_str : String) : Option Nat :=
  NUMBER_TO_MIDI_MAP.lookup (String.mk (pyStrip num_str.data))

/-- A decoded event: the `{'notes': ..., 'duration': ...}` dict. -/
structure DecodedEvent where
  notes : List Nat
  duration : Nat
deriving DecidableEq

/-- The pitches of one slot's content: Python's
`[number_to_midi(n) for n in slot_content.split()]` followed by
dropping the `None`s. -/
def slotNotes (slot_content : List Char) : List Nat :=
  ((splitWs slot_content).map (fun tok => number_to_midi (String.mk tok))).reduceOption

/-- The slot walk of `parse_number_string`: a non-empty slot becomes a
chord whose duration is 1 plus the immediately following empty slots
(which are consumed); events whose chords filter to empty are dropped;
unconsumed empty slots are skipped. -/
def parseSlots : List (List Char) → List DecodedEvent
  | [] => []
  | slot :: rest =>
    let slot_content := pyStrip slot
    if slot_content = [] then parseSlots rest
    else
      let notes := slotNotes slot_content
      let emptyCount := (rest.takeWhile (fun t => pyStrip t = [])).length
      let tail := parseSlots (rest.drop emptyCount)
      if notes = [] then tail else ⟨notes, 1 + emptyCount⟩ :: tail
termination_by slots => slots.length
decreasing_by
  all_goals (simp [List.length_drop]; try omega)

/-- Model of `parse_number_string`: normalize (strip, ensure leading/trailing `/`),
split on `/`, drop the artifact first and last pieces, walk the slots. -/
def parse_number_string (number_string : String) : List DecodedEvent :=
  let s := pyStrip number_string.data
  let s := if s.head? = some '/' then s else '/' :: s
  let s := if s.getLast? = some '/' then s else s ++ ['/']
  let slots := splitCharAux (fun c => c = '/') s
  parseSlots (slots.drop 1).dropLast

/-- Fueled companion of `parseSlots` (identical body, structurally
recursive on the fuel) so concrete runs reduce definitionally. -/
def parseSlotsFuel : Nat → List (List Char) → List DecodedEvent
  | _, [] => []
  | 0, _ :: _ => []
  | fuel + 1, slot :: rest =>
    let slot_content := pyStrip slot
    if slot_content = [] then parseSlotsFuel fuel rest
    else
      let notes := slotNotes slot_content
      let emptyCount := (rest.takeWhile (fun t => pyStrip t = [])).length
      let tail := parseSlotsFuel fuel (rest.drop emptyCount)
      if notes = [] then tail else ⟨notes, 1 + emptyCount⟩ :: tail

/-- Executable form of `parse_number_string`, used to evaluate the model
on concrete inputs. -/
def parse_number_string_exec (number_string : String) : List DecodedEvent :=
  let s := pyStrip number_string.data
  let s := if s.head? = some '/' then s else '/' :: s
  let s := if s.getLast? = some '/' then s else s ++ ['/']
  let slots := splitCharAux (fun c => c = '/') s
  parseSlotsFuel ((slots.drop 1).dropLast).length (slots.drop 1).dropLast

/-- Model of `validate_events_pre_creation`: scan adjacent pairs; two consecutive
duration-1 events with intersecting note sets fail the validation. -/
def validate_events_pre_creation : List DecodedEvent → Bool
  | e1 :: e2 :: rest =>
    if e1.duration == 1 && e2.duration == 1 &&
        e1.notes.any (fun n => e2.notes.contains n) then
      false
    else
      validate_events_pre_creation (e2 :: rest)
  | _ => true

/-- The `'type'` tag of a per-clef event. -/
inductive EventType where
  | note
  | sustain
  | rest
deriving DecidableEq

/-- A per-clef event dict `{'type', 'notes', 'duration'}` (the `'rest'`
dicts built by the merger carry no notes; modelled with `[]`). -/
structure ClefEvent where
  type : EventType
  notes : List Nat
  duration : Nat
deriving DecidableEq

/-- The clef split inside `create_midi_file`: per decoded event, treble
takes the pitches `>= 60` and bass the pitches `< 60`; the raw event is a
`note` when its subset is non-empty, else a `sustain`, always keeping the
event's duration. Returns `(treble_events_raw, bass_events_raw)`. -/
def split_raw_events (parsed_events : List DecodedEvent) :
    List ClefEvent × List ClefEvent :=
  (parsed_events.map (fun event =>
      let treble_notes := event.notes.filter (fun note => 60 ≤ note)
      ⟨if treble_notes = [] then .sustain else .note, treble_notes,
        event.duration⟩),
   parsed_events.map (fun event =>
      let bass_notes := event.notes.filter (fun note => note < 60)
      ⟨if bass_notes = [] then .sustain else .note, bass_notes,
        event.duration⟩))

/-- One iteration of `merge_sustain_events`' loop: a `note` is appended; a
`sustain` extends the duration of the last merged event when that event is
a `note`, and otherwise appends a fresh `rest` of the sustain's duration (a
`rest` input matches neither branch of the source and is dropped). -/
def merge_step (merged : List ClefEvent) (event : ClefEvent) :
    List ClefEvent :=
  match event.type with
  | .note => merged ++ [event]
  | .sustain =>
    match merged.getLast? with
    | some last =>
      if last.type = .note then
        merged.dropLast ++ [{ last with duration := last.duration + event.duration }]
      else
        merged ++ [⟨.rest, [], event.duration⟩]
    | none => merged ++ [⟨.rest, [], event.duration⟩]
  | .rest => merged

/-- Model of `merge_sustain_events`: fold the loop over the raw events. -/
def merge_sustain_events (raw_events : List ClefEvent) : List ClefEvent :=
  raw_events.foldl merge_step []

/-- Message kinds relevant to the encoder and the post validator. -/
inductive MsgKind where
  | noteOn
  | noteOff
  | meta
deriving DecidableEq

/-- A mido message as far as the program inspects it: kind, note,
velocity and delta-time (`time`). Meta messages carry dummy note/velocity. -/
structure Msg where
  kind : MsgKind
  note : Nat
  velocity : Nat
  time : Nat
deriving DecidableEq

/-- Model of `write_track_from_final_events` with the `pending_delay` accumulator
made explicit: a `note` event emits `note_on`s for the chord (the first
carrying the pending delay, the rest delay 0) then `note_off`s (the first
carrying `duration * TICKS_PER_8TH_NOTE`, the rest delay 0); a `rest`
adds its ticks to the pending delay; a `sustain` matches neither branch.
(The source would fail on a `note` event with an empty chord — `notes[0]` —
which the program never produces; that case is skipped here.) -/
def write_track_from_final_events (pending_delay : Nat) :
    List ClefEvent → List Msg
  | [] => []
  | event :: rest =>
    let duration_ticks := event.duration * TICKS_PER_8TH_NOTE
    match event.type with
    | .note =>
      match event.notes with
      | [] => write_track_from_final_events pending_delay rest
      | n :: ns =>
        ⟨.noteOn, n, 80, pending_delay⟩ ::
          (ns.map (fun m => ⟨.noteOn, m, 80, 0⟩) ++
            (⟨.noteOff, n, 80, duration_ticks⟩ ::
              (ns.map (fun m => ⟨.noteOff, m, 80, 0⟩) ++
                write_track_from_final_events 0 rest)))
    | .sustain => write_track_from_final_events pending_delay rest
    | .rest =>
      write_track_from_final_events (pending_delay + duration_ticks) rest

/-- The one-time `set_tempo` meta message opening the treble track. -/
def tempoMsg : Msg := ⟨.meta, 0, 0, 0⟩

/-- The in-memory shape of the written file as the program inspects it:
`ticks_per_beat` and the message lists of the tracks, in order. -/
structure MidiFileModel where
  ticks_per_beat : Nat
  tracks : List (List Msg)

/-- The track content built by `create_midi_file` (before saving): the
treble track opens with the tempo meta message, both clefs are split,
sustain-merged and encoded, at 480 ticks per beat. -/
def create_midi_file_model (parsed_events : List DecodedEvent) :
    MidiFileModel :=
  let raw := split_raw_events parsed_events
  let final_treble_events := merge_sustain_events raw.1
  let final_bass_events := merge_sustain_events raw.2
  ⟨480,
   [tempoMsg :: write_track_from_final_events 0 final_treble_events,
    write_track_from_final_events 0 final_bass_events]⟩

/-- The per-track replay state of `validate_midi_post_creation`:
`notes_on` maps a sounding pitch to its onset time,
`last_note_off_time` maps a pitch to its last short-held release time,
`absolute_time` is the running sum of delta-times. -/
structure PostState where
  notes_on : Nat → Option Nat
  last_note_off_time : Nat → Option Nat
  absolute_time : Nat

/-- The initial replay state (empty dicts, time 0). -/
def initPostState : PostState := ⟨fun _ => none, fun _ => none, 0⟩

/-- Whether a message makes the validator return `False`: a `note_on`
with positive velocity whose pitch has a recorded short-held release
less than `ticks_for_8th` before the new onset. -/
def retrigger (ticks_for_8th : ℚ) (st : PostState) (msg : Msg) : Bool :=
  match msg.kind with
  | .noteOn =>
    if 0 < msg.velocity then
      match st.last_note_off_time msg.note with
      | some t_off =>
        let time_since_last_off := st.absolute_time + msg.time - t_off
        decide ((time_since_last_off : ℚ) < ticks_for_8th)
      | none => false
    else false
  | _ => false

/-- The note-off handling of the replay (also reached by `note_on` with
velocity 0): when the pitch is sounding, record its release time in
`last_note_off_time` iff its held duration was below `ticks_for_8th`,
and remove it from `notes_on`. -/
def postOff (ticks_for_8th : ℚ) (st : PostState) (msg : Msg) (t : Nat) :
    PostState :=
  match st.notes_on msg.note with
  | some t_on =>
    { absolute_time := t
      notes_on := fun q => if q = msg.note then none else st.notes_on q
      last_note_off_time :=
        if ((t - t_on : Nat) : ℚ) < ticks_for_8th then
          fun q => if q = msg.note then some t else st.last_note_off_time q
        else st.last_note_off_time }
  | none => { st with absolute_time := t }

/-- One replay step (state update only; the `False` return is
`retrigger`). -/
def postStep (ticks_for_8th : ℚ) (st : PostState) (msg : Msg) : PostState :=
  let t := st.absolute_time + msg.time
  match msg.kind with
  | .noteOn =>
    if 0 < msg.velocity then
      { st with
        absolute_time := t
        notes_on := fun q => if q = msg.note then some t else st.notes_on q }
    else postOff ticks_for_8th st msg t
  | .noteOff => postOff ticks_for_8th st msg t
  | .meta => { st with absolute_time := t }

/-- The validator's per-track loop: `False` at the first retrigger, else
replay to the end. -/
def checkTrack (ticks_for_8th : ℚ) (st : PostState) : List Msg → Bool
  | [] => true
  | msg :: msgs =>
    if retrigger ticks_for_8th st msg then false
    else checkTrack ticks_for_8th (postStep ticks_for_8th st msg) msgs

/-- Model of `validate_midi_post_creation`: a structural read failure (the
`except` arm) yields `false`; otherwise every track must replay without a
retrigger, with `ticks_for_8th = ticks_per_beat / 2`. -/
def validate_midi_post_creation (file : Except String MidiFileModel) :
    Bool :=
  match file with
  | .error _ => false
  | .ok mid =>
    let ticks_for_8th : ℚ := (mid.ticks_per_beat : ℚ) / 2
    mid.tracks.all (fun track => checkTrack ticks_for_8th initPostState track)

/-- The tabulated pitch values, in degree order 1..30. -/
def expectedPitches : List Nat :=
  [41, 43, 48, 50, 52, 53, 55, 57, 58, 59, 60, 61, 62, 63, 64, 65, 66, 67,
   68, 69, 70, 71, 72, 73, 74, 75, 76, 77, 79, 81]

/-- Total duration of a per-clef event sequence. -/
def durSum (events : List ClefEvent) : Nat :=
  (events.map ClefEvent.duration).sum

/-- A message with its absolute time (the post-validator's replay view). -/
structure AbsMsg where
  kind : MsgKind
  note : Nat
  time : Nat
deriving DecidableEq

/-- Replay a delta-timed message list into absolute times starting at `t`. -/
def absolutize (t : Nat) : List Msg → List AbsMsg
  | [] => []
  | msg :: msgs =>
    ⟨msg.kind, msg.note, t + msg.time⟩ :: absolutize (t + msg.time) msgs

/-- Reference timeline, written from the spec's round-trip property: each
Note event's pitches all sound at the running onset and all release at
onset + duration ticks; rests (and any non-note) advance the timeline
silently. -/
def specNoteTimings (t : Nat) : List ClefEvent → List AbsMsg
  | [] => []
  | e :: rest =>
    let d := e.duration * TICKS_PER_8TH_NOTE
    match e.type with
    | .note =>
      e.notes.map (fun p => ⟨.noteOn, p, t⟩) ++
        (e.notes.map (fun p => ⟨.noteOff, p, t + d⟩) ++
          specNoteTimings (t + d) rest)
    | _ => specNoteTimings (t + d) rest

/-! ## Theorems -/

theorem parseSlots_eq_fuel :
    ∀ (fuel : Nat) (slots : List (List Char)), slots.length ≤ fuel →
      parseSlots slots = parseSlotsFuel fuel slots := by
  intro fuel
  induction fuel with
  | zero =>
    intro slots h
    cases slots with
    | nil => rw [parseSlots, parseSlotsFuel]
    | cons a l => simp at h
  | succ n ih =>
    intro slots h
    cases slots with
    | nil => rw [parseSlots, parseSlotsFuel]
    | cons slot rest =>
      rw [parseSlots, parseSlotsFuel]
      simp only []
      by_cases h1 : pyStrip slot = []
      · simp only [h1, if_pos rfl]
        exact ih rest (by simp at h; omega)
      · simp only [if_neg h1]
        have hd : (rest.drop (rest.takeWhile (fun t => pyStrip t = [])).length).length ≤ n := by
          simp only [List.length_drop]
          simp at h
          omega
        rw [ih _ hd]

theorem parse_number_string_eq_exec (number_string : String) :
    parse_number_string number_string = parse_number_string_exec number_string :=
  parseSlots_eq_fuel _ _ le_rfl

theorem lookup_eq_none_iff {α β : Type} [BEq α] [LawfulBEq α]
    (l : List (α × β)) (k : α) :
    l.lookup k = none ↔ k ∉ l.map Prod.fst := by
  induction l with
  | nil => simp [List.lookup]
  | cons a l ih =>
    rw [List.lookup]
    by_cases h : k = a.1
    · have hb : (k == a.1) = true := beq_iff_eq.mpr h
      simp [hb, h]
    · have hb : (k == a.1) = false := by simp [h]
      simp [hb, ih, h]

/-- C10: every degree string "1".."30" looks up to exactly the tabulated
pitch; any other token (after trimming) yields no pitch; and a token
yielding no pitch contributes nothing to its chord's pitch list. -/
theorem pitch_table_lookup :
    (∀ i : Fin 30,
        number_to_midi (Nat.repr (i.1 + 1)) = some (expectedPitches.get ⟨i.1, i.2⟩)) ∧
    (∀ s : String,
        number_to_midi s = none ↔
          String.mk (pyStrip s.data) ∉ NUMBER_TO_MIDI_MAP.map Prod.fst) ∧
    (∀ (pre post : List String) (tok : String), number_to_midi tok = none →
        ((pre ++ tok :: post).map number_to_midi).reduceOption =
          ((pre ++ post).map number_to_midi).reduceOption) := by
  refine ⟨by decide, ?_, ?_⟩
  · intro s
    exact lookup_eq_none_iff NUMBER_TO_MIDI_MAP (String.mk (pyStrip s.data))
  · intro pre post tok htok
    simp [List.reduceOption, htok]

theorem pitch_table_lookup_witness :
    number_to_midi (Nat.repr (0 + 1)) = some (expectedPitches.get ⟨0, by decide⟩) ∧
    ((([] : List String) ++ "31" :: ["1"]).map number_to_midi).reduceOption =
      ((([] : List String) ++ ["1"]).map number_to_midi).reduceOption :=
  ⟨pitch_table_lookup.1 ⟨0, by decide⟩,
   pitch_table_lookup.2.2 [] ["1"] "31" (by decide)⟩

theorem validate_pre_false_iff (events : List DecodedEvent) :
    validate_events_pre_creation events = false ↔
      ∃ i e1 e2, events[i]? = some e1 ∧ events[i + 1]? = some e2 ∧
        e1.duration = 1 ∧ e2.duration = 1 ∧ ∃ p, p ∈ e1.notes ∧ p ∈ e2.notes := by
  induction events with
  | nil =>
    simp [validate_events_pre_creation]
  | cons e1 tl ih =>
    cases tl with
    | nil =>
      simp [validate_events_pre_creation]
    | cons e2 rest =>
      rw [validate_events_pre_creation]
      by_cases hc : (e1.duration == 1 && e2.duration == 1 &&
          e1.notes.any fun n => e2.notes.contains n) = true
      · rw [if_pos hc]
        simp only [Bool.and_eq_true, beq_iff_eq, List.any_eq_true] at hc
        obtain ⟨⟨h1, h2⟩, p, hp1, hp2⟩ := hc
        simp only [true_iff]
        exact ⟨0, e1, e2, by simp, by simp, h1, h2, p, hp1, by simpa using hp2⟩
      · rw [if_neg hc, ih]
        constructor
        · rintro ⟨i, a, b, ha, hb, h1, h2, p, hp1, hp2⟩
          refine ⟨i + 1, a, b, ?_, ?_, h1, h2, p, hp1, hp2⟩
          · simpa using ha
          · simpa using hb
        · rintro ⟨i, a, b, ha, hb, h1, h2, p, hp1, hp2⟩
          cases i with
          | zero =>
            simp at ha hb
            subst ha; subst hb
            exact absurd (by
              simp only [Bool.and_eq_true, beq_iff_eq, List.any_eq_true]
              exact ⟨⟨h1, h2⟩, p, hp1, by simpa using hp2⟩) hc
          | succ i =>
            refine ⟨i, a, b, ?_, ?_, h1, h2, p, hp1, hp2⟩
            · simpa using ha
            · simpa using hb

/-- C6: the pre-creation validator fails exactly when two adjacent
decoded events both have duration 1 and share a pitch; in particular
it fails on two adjacent duration-1 unisons and passes when the first
of the pair is sustained. -/
theorem pre_validation_characterisation :
    (∀ events : List DecodedEvent,
      validate_events_pre_creation events = false ↔
        ∃ i e1 e2, events[i]? = some e1 ∧ events[i + 1]? = some e2 ∧
          e1.duration = 1 ∧ e2.duration = 1 ∧
          ∃ p, p ∈ e1.notes ∧ p ∈ e2.notes) ∧
    validate_events_pre_creation [⟨[60], 1⟩, ⟨[60], 1⟩] = false ∧
    validate_events_pre_creation [⟨[60], 2⟩, ⟨[60], 1⟩] = true :=
  ⟨validate_pre_false_iff, by decide, by decide⟩

/-- C9: each decoded event yields exactly one raw event per clef with the
same duration (lockstep, duration-aligned, same length); pitches `≥ 60`
(the pitch of degree "11") go to treble and pitches `< 60` to bass, in
written order; the raw kind is `note` exactly when the subset is
non-empty; and `[55, 65]` splits into bass `[55]`, treble `[65]`. -/
theorem clef_splitting (parsed_events : List DecodedEvent) :
    ((split_raw_events parsed_events).1.length = parsed_events.length ∧
     (split_raw_events parsed_events).2.length = parsed_events.length) ∧
    (∀ (k : Nat) (e : DecodedEvent), parsed_events[k]? = some e →
      ∃ te be, (split_raw_events parsed_events).1[k]? = some te ∧
        (split_raw_events parsed_events).2[k]? = some be ∧
        te.duration = e.duration ∧ be.duration = e.duration ∧
        te.notes = e.notes.filter (fun note => 60 ≤ note) ∧
        be.notes = e.notes.filter (fun note => note < 60) ∧
        (te.type = .note ↔ te.notes ≠ []) ∧
        (be.type = .note ↔ be.notes ≠ [])) ∧
    number_to_midi ("11") = some 60 ∧
    (split_raw_events [⟨[55, 65], 1⟩]).1 = [⟨.note, [65], 1⟩] ∧
    (split_raw_events [⟨[55, 65], 1⟩]).2 = [⟨.note, [55], 1⟩] := by
  refine ⟨⟨by simp [split_raw_events], by simp [split_raw_events]⟩, ?_,
    by decide, by decide, by decide⟩
  intro k e hk
  refine ⟨⟨if e.notes.filter (fun note => 60 ≤ note) = [] then .sustain else .note,
            e.notes.filter (fun note => 60 ≤ note), e.duration⟩,
          ⟨if e.notes.filter (fun note => note < 60) = [] then .sustain else .note,
            e.notes.filter (fun note => note < 60), e.duration⟩,
          ?_, ?_, rfl, rfl, rfl, rfl, ?_, ?_⟩
  · simp [split_raw_events, List.getElem?_map, hk]
  · simp [split_raw_events, List.getElem?_map, hk]
  · by_cases h : e.notes.filter (fun note => 60 ≤ note) = [] <;> simp [h]
  · by_cases h : e.notes.filter (fun note => note < 60) = [] <;> simp [h]

theorem clef_splitting_witness :
    ∃ te be,
      (split_raw_events [⟨[55, 65], 1⟩]).1[0]? = some te ∧
      (split_raw_events [⟨[55, 65], 1⟩]).2[0]? = some be ∧
      te.duration = (⟨[55, 65], 1⟩ : DecodedEvent).duration ∧
      be.duration = (⟨[55, 65], 1⟩ : DecodedEvent).duration ∧
      te.notes = (⟨[55, 65], 1⟩ : DecodedEvent).notes.filter (fun note => 60 ≤ note) ∧
      be.notes = (⟨[55, 65], 1⟩ : DecodedEvent).notes.filter (fun note => note < 60) ∧
      (te.type = .note ↔ te.notes ≠ []) ∧
      (be.type = .note ↔ be.notes ≠ []) :=
  (clef_splitting [⟨[55, 65], 1⟩]).2.1 0 ⟨[55, 65], 1⟩ (by rfl)

theorem takeWhile_all_append {α : Type} (p : α → Bool) (es rest : List α)
    (hes : ∀ e ∈ es, p e = true)
    (hrest : ∀ r, rest.head? = some r → p r = false) :
    (es ++ rest).takeWhile p = es := by
  induction es with
  | nil =>
    cases rest with
    | nil => simp
    | cons r t =>
      simp only [List.nil_append, List.takeWhile]
      rw [hrest r rfl]
  | cons a es ih =>
    simp only [List.cons_append, List.takeWhile_cons, hes a (by simp), if_pos]
    rw [ih (fun e he => hes e (by simp [he]))]

/-- C5: a chord slot's event takes duration 1 plus the number of
immediately following empty slots, which are consumed (the walk resumes
after them, so each empty slot belongs to at most one chord); and
`decode("/1//2/")` is pitch 41 with duration 2 then pitch 43 with
duration 1. -/
theorem decoder_duration_lookahead :
    (∀ (slot : List Char) (es rest : List (List Char)),
      pyStrip slot ≠ [] →
      slotNotes (pyStrip slot) ≠ [] →
      (∀ e ∈ es, pyStrip e = []) →
      (∀ r, rest.head? = some r → pyStrip r ≠ []) →
      parseSlots (slot :: (es ++ rest)) =
        ⟨slotNotes (pyStrip slot), 1 + es.length⟩ :: parseSlots rest) ∧
    parse_number_string ("/1//2/") = [⟨[41], 2⟩, ⟨[43], 1⟩] := by
  constructor
  · intro slot es rest h1 h2 hes hrest
    have ht : (es ++ rest).takeWhile (fun t => pyStrip t = []) = es := by
      refine takeWhile_all_append _ es rest ?_ ?_
      · intro e he
        simp [hes e he]
      · intro r hr
        simp [hrest r hr]
    rw [parseSlots]
    simp only [if_neg h1, ht, List.length_append, if_neg h2]
    rw [List.drop_left]
  · rw [parse_number_string_eq_exec]
    decide

theorem decoder_duration_lookahead_witness :
    parseSlots [['1'], [], ['2']] =
      ⟨slotNotes (pyStrip ['1']), 1 + [([] : List Char)].length⟩ ::
        parseSlots [['2']] :=
  decoder_duration_lookahead.1 ['1'] [[]] [['2']]
    (by decide) (by decide) (by decide) (by intro r hr; simp at hr; subst hr; decide)

theorem getLast?_decomp {α : Type} {l : List α} {a : α}
    (h : l.getLast? = some a) : l.dropLast ++ [a] = l :=
  List.dropLast_append_getLast? a (Option.mem_def.mpr h)

theorem merge_step_durSum (acc : List ClefEvent) (e : ClefEvent)
    (he : e.type ≠ EventType.rest) :
    durSum (merge_step acc e) = durSum acc + e.duration := by
  cases htype : e.type with
  | note => simp [merge_step, htype, durSum]
  | sustain =>
    simp only [merge_step, htype]
    cases hl : acc.getLast? with
    | none => simp [durSum]
    | some last =>
      by_cases hn : last.type = EventType.note
      · simp only [if_pos hn]
        have hacc := getLast?_decomp hl
        calc durSum (acc.dropLast ++ [{ last with duration := last.duration + e.duration }])
            = durSum acc.dropLast + (last.duration + e.duration) := by
              simp [durSum]
          _ = (durSum acc.dropLast + last.duration) + e.duration := by omega
          _ = durSum (acc.dropLast ++ [last]) + e.duration := by simp [durSum]
          _ = durSum acc + e.duration := by rw [hacc]
      · simp [if_neg hn, durSum]
  | rest => exact absurd htype he

theorem merge_step_length (acc : List ClefEvent) (e : ClefEvent) :
    (merge_step acc e).length ≤ acc.length + 1 := by
  cases htype : e.type with
  | note => simp [merge_step, htype]
  | sustain =>
    simp only [merge_step, htype]
    cases hl : acc.getLast? with
    | none => simp
    | some last =>
      by_cases hn : last.type = EventType.note
      · simp only [if_pos hn]
        have hacc := getLast?_decomp hl
        have h2 : acc.dropLast.length + 1 = acc.length := by
          conv_rhs => rw [← hacc]
          simp
        simp only [List.length_append, List.length_cons, List.length_nil]
        omega
      · simp [if_neg hn]
  | rest => simp [merge_step, htype]

theorem merge_foldl_durSum :
    ∀ (raw : List ClefEvent) (acc : List ClefEvent),
      (∀ e ∈ raw, e.type ≠ EventType.rest) →
      durSum (raw.foldl merge_step acc) = durSum acc + durSum raw := by
  intro raw
  induction raw with
  | nil => intro acc _; simp [durSum]
  | cons e raw ih =>
    intro acc h
    rw [List.foldl_cons, ih _ (fun x hx => h x (by simp [hx])),
      merge_step_durSum acc e (h e (by simp))]
    simp [durSum]
    omega

theorem merge_foldl_length :
    ∀ (raw : List ClefEvent) (acc : List ClefEvent),
      (raw.foldl merge_step acc).length ≤ acc.length + raw.length := by
  intro raw
  induction raw with
  | nil => intro acc; simp
  | cons e raw ih =>
    intro acc
    calc ((e :: raw).foldl merge_step acc).length
        = (raw.foldl merge_step (merge_step acc e)).length := by simp
      _ ≤ (merge_step acc e).length + raw.length := ih _
      _ ≤ (acc.length + 1) + raw.length := by
          have := merge_step_length acc e
          omega
      _ = acc.length + (e :: raw).length := by simp; omega

/-- C4: merging preserves the total duration (for raw per-clef sequences,
which contain only `note` and `sustain` events) and never increases the
event count. -/
theorem merge_duration_preserving_count_reducing
    (raw_events : List ClefEvent)
    (h : ∀ e ∈ raw_events, e.type ≠ EventType.rest) :
    durSum (merge_sustain_events raw_events) = durSum raw_events ∧
    (merge_sustain_events raw_events).length ≤ raw_events.length := by
  constructor
  · have := merge_foldl_durSum raw_events [] h
    simpa [merge_sustain_events, durSum] using this
  · have := merge_foldl_length raw_events []
    simpa [merge_sustain_events] using this

theorem merge_duration_preserving_count_reducing_witness :
    durSum (merge_sustain_events [⟨.note, [60], 1⟩, ⟨.sustain, [], 2⟩]) =
      durSum [⟨.note, [60], 1⟩, ⟨.sustain, [], 2⟩] ∧
    (merge_sustain_events [⟨.note, [60], 1⟩, ⟨.sustain, [], 2⟩]).length ≤
      ([⟨.note, [60], 1⟩, ⟨.sustain, [], 2⟩] : List ClefEvent).length :=
  merge_duration_preserving_count_reducing _ (by decide)

theorem merge_concat (pre : List ClefEvent) (e : ClefEvent) :
    merge_sustain_events (pre ++ [e]) =
      merge_step (merge_sustain_events pre) e := by
  simp [merge_sustain_events, List.foldl_append]

/-- C3 counterexample: two consecutive leading Sustains do NOT merge into
a single Rest — the source appends one `rest` per sustain, so the merged
sequence has two events, not one. -/
theorem sustain_merging_counterexample :
    merge_sustain_events [⟨.sustain, [], 1⟩, ⟨.sustain, [], 1⟩] =
      [⟨.rest, [], 1⟩, ⟨.rest, [], 1⟩] ∧
    ¬ (merge_sustain_events [⟨.sustain, [], 1⟩, ⟨.sustain, [], 1⟩]).length = 1 := by
  constructor
  · decide
  · decide

theorem merge_sustains_aux :
    ∀ (ds : List Nat) (acc : List ClefEvent),
      (∀ e ∈ acc, e.type = EventType.rest) →
      List.foldl merge_step acc (ds.map fun x => ⟨.sustain, [], x⟩) =
        acc ++ ds.map fun x => ⟨.rest, [], x⟩ := by
  intro ds
  induction ds with
  | nil => intro acc _; simp
  | cons d ds ih =>
    intro acc hacc
    have hstep : merge_step acc ⟨.sustain, [], d⟩ = acc ++ [⟨.rest, [], d⟩] := by
      simp only [merge_step]
      cases hl : acc.getLast? with
      | none => rfl
      | some last =>
        have hmem : last ∈ acc := by
          have := getLast?_decomp hl
          rw [← this]
          simp
        have hrest := hacc last hmem
        simp [hrest]
    have hall : ∀ e ∈ acc ++ [⟨.rest, [], d⟩], e.type = EventType.rest := by
      intro e he
      rcases List.mem_append.mp he with h | h
      · exact hacc e h
      · simp at h
        subst h
        rfl
    rw [List.map_cons, List.foldl_cons, hstep, ih _ hall]
    simp

/-- C3 (amended): a Sustain whose preceding merged event is a Note extends
that note's duration by the sustain's duration; a Sustain with no
preceding Note (empty merged prefix, or a merged prefix ending in a Rest)
appends a fresh Rest merged event of the sustain's own duration — so a
clef sequence of n leading Sustains yields n Rest merged events (one per
sustain, their durations summing to the total), not a single combined
Rest. -/
theorem sustain_merging_behaviour :
    (∀ (pre : List ClefEvent) (snotes : List Nat) (d : Nat)
        (init : List ClefEvent) (ns : List Nat) (dn : Nat),
      merge_sustain_events pre = init ++ [⟨.note, ns, dn⟩] →
      merge_sustain_events (pre ++ [⟨.sustain, snotes, d⟩]) =
        init ++ [⟨.note, ns, dn + d⟩]) ∧
    (∀ (pre : List ClefEvent) (snotes : List Nat) (d : Nat),
      (merge_sustain_events pre = [] ∨
        ∃ init dr, merge_sustain_events pre = init ++ [⟨.rest, [], dr⟩]) →
      merge_sustain_events (pre ++ [⟨.sustain, snotes, d⟩]) =
        merge_sustain_events pre ++ [⟨.rest, [], d⟩]) ∧
    (∀ ds : List Nat,
      merge_sustain_events (ds.map fun x => ⟨.sustain, [], x⟩) =
        ds.map fun x => ⟨.rest, [], x⟩) := by
  refine ⟨?_, ?_, ?_⟩
  · intro pre snotes d init ns dn hpre
    rw [merge_concat, hpre]
    simp only [merge_step]
    rw [List.getLast?_concat]
    simp
  · intro pre snotes d hpre
    rw [merge_concat]
    rcases hpre with hpre | ⟨init, dr, hpre⟩
    · rw [hpre]
      rfl
    · rw [hpre]
      simp only [merge_step]
      rw [List.getLast?_concat]
      simp
  · intro ds
    have := merge_sustains_aux ds [] (by intro e he; simp at he)
    simpa [merge_sustain_events] using this

theorem sustain_merging_behaviour_witness :
    merge_sustain_events ([⟨.note, [60], 1⟩] ++ [⟨.sustain, [], 2⟩]) =
      [] ++ [⟨.note, [60], 1 + 2⟩] :=
  sustain_merging_behaviour.1 [⟨.note, [60], 1⟩] [] 2 [] [60] 1 (by decide)

/-- C2: processing merged events in order with the pending-delay
accumulator, a `rest` emits nothing and adds `duration * 240` ticks to the
accumulator, and a `note` emits exactly: `note_on` of the first pitch
carrying the pending delay, `note_on` with delay 0 for each further chord
pitch in order, `note_off` of the first pitch with delay `duration * 240`,
then `note_off` with delay 0 for the remaining pitches, the accumulator
restarting at 0. -/
theorem track_encoder_message_shape (pending_delay : Nat)
    (event : ClefEvent) (rest : List ClefEvent) :
    (event.type = EventType.rest →
      write_track_from_final_events pending_delay (event :: rest) =
        write_track_from_final_events
          (pending_delay + event.duration * TICKS_PER_8TH_NOTE) rest) ∧
    (∀ (n : Nat) (ns : List Nat), event.type = EventType.note →
      event.notes = n :: ns →
      write_track_from_final_events pending_delay (event :: rest) =
        ⟨.noteOn, n, 80, pending_delay⟩ ::
          (ns.map (fun m => ⟨.noteOn, m, 80, 0⟩) ++
            (⟨.noteOff, n, 80, event.duration * TICKS_PER_8TH_NOTE⟩ ::
              (ns.map (fun m => ⟨.noteOff, m, 80, 0⟩) ++
                write_track_from_final_events 0 rest)))) := by
  constructor
  · intro h
    rw [write_track_from_final_events]
    simp [h]
  · intro n ns ht hn
    rw [write_track_from_final_events]
    simp [ht, hn]

theorem track_encoder_message_shape_witness :
    write_track_from_final_events 5 [⟨.note, [60, 64], 2⟩] =
      ⟨.noteOn, 60, 80, 5⟩ ::
        ([64].map (fun m => ⟨.noteOn, m, 80, 0⟩) ++
          (⟨.noteOff, 60, 80,
              (⟨.note, [60, 64], 2⟩ : ClefEvent).duration * TICKS_PER_8TH_NOTE⟩ ::
            ([64].map (fun m => ⟨.noteOff, m, 80, 0⟩) ++
              write_track_from_final_events 0 []))) :=
  (track_encoder_message_shape 5 ⟨.note, [60, 64], 2⟩ []).2 60 [64] rfl rfl

theorem absolutize_map_zero (κ : MsgKind) (v : Nat) (qs : List Nat)
    (t : Nat) (k : List Msg) :
    absolutize t (qs.map (fun m => ⟨κ, m, v, 0⟩) ++ k) =
      qs.map (fun m => (⟨κ, m, t⟩ : AbsMsg)) ++ absolutize t k := by
  induction qs with
  | nil => simp
  | cons q qs ih => simp [absolutize, ih]

theorem absolutize_write_track :
    ∀ (events : List ClefEvent) (t p : Nat),
      (∀ e ∈ events, e.type = EventType.note → e.notes ≠ []) →
      (∀ e ∈ events, e.type ≠ EventType.sustain) →
      absolutize t (write_track_from_final_events p events) =
        specNoteTimings (t + p) events := by
  intro events
  induction events with
  | nil => intro t p _ _; simp [write_track_from_final_events, absolutize, specNoteTimings]
  | cons e rest ih =>
    intro t p hwf hns
    cases htype : e.type with
    | note =>
      cases hn : e.notes with
      | nil => exact absurd hn (hwf e (by simp) htype)
      | cons n ns =>
        rw [write_track_from_final_events]
        simp only [htype, hn]
        rw [absolutize, absolutize_map_zero, absolutize, absolutize_map_zero,
          ih _ _ (fun x hx => hwf x (by simp [hx])) (fun x hx => hns x (by simp [hx]))]
        rw [specNoteTimings]
        simp only [htype, hn]
        simp [Nat.add_assoc]
    | sustain => exact absurd htype (hns e (by simp))
    | rest =>
      rw [write_track_from_final_events]
      simp only [htype]
      rw [ih _ _ (fun x hx => hwf x (by simp [hx])) (fun x hx => hns x (by simp [hx]))]
      rw [specNoteTimings]
      simp only [htype]
      simp [Nat.add_assoc]

theorem mem_specNoteTimings :
    ∀ (events : List ClefEvent) (t k : Nat) (e : ClefEvent),
      events[k]? = some e → e.type = EventType.note → ∀ p ∈ e.notes,
      (⟨.noteOn, p, t + 240 * durSum (events.take k)⟩ : AbsMsg) ∈
        specNoteTimings t events ∧
      (⟨.noteOff, p, t + 240 * durSum (events.take k) + e.duration * 240⟩ : AbsMsg) ∈
        specNoteTimings t events := by
  intro events
  induction events with
  | nil => intro t k e hk; simp at hk
  | cons h rest ih =>
    intro t k e hk hnote p hp
    cases k with
    | zero =>
      simp only [List.getElem?_cons_zero, Option.some.injEq] at hk
      subst hk
      rw [specNoteTimings]
      simp only [hnote]
      constructor
      · apply List.mem_append_left
        simp only [List.take_zero, durSum, List.map_nil, List.sum_nil,
          Nat.mul_zero, Nat.add_zero]
        exact List.mem_map.mpr ⟨p, hp, rfl⟩
      · apply List.mem_append_right
        apply List.mem_append_left
        simp only [List.take_zero, durSum, List.map_nil, List.sum_nil,
          Nat.mul_zero, Nat.add_zero]
        refine List.mem_map.mpr ⟨p, hp, ?_⟩
        simp [TICKS_PER_8TH_NOTE]
    | succ k =>
      simp only [List.getElem?_cons_succ] at hk
      have harith : t + 240 * durSum ((h :: rest).take (k + 1)) =
          (t + h.duration * TICKS_PER_8TH_NOTE) + 240 * durSum (rest.take k) := by
        simp [durSum, TICKS_PER_8TH_NOTE]
        ring
      have hmem := ih (t + h.duration * TICKS_PER_8TH_NOTE) k e hk hnote p hp
      rw [specNoteTimings]
      cases htype : h.type with
      | note =>
        simp only []
        rw [harith]
        exact ⟨List.mem_append_right _ (List.mem_append_right _ hmem.1),
          List.mem_append_right _ (List.mem_append_right _ hmem.2)⟩
      | sustain =>
        simp only []
        rw [harith]
        exact ⟨hmem.1, hmem.2⟩
      | rest =>
        simp only []
        rw [harith]
        exact ⟨hmem.1, hmem.2⟩

/-- C1: replaying the encoder's delta-timed messages, the k-th merged
event (when it is a Note) has every chord pitch's `note_on` at absolute
time `240 * (sum of durations of the preceding merged events)` and every
chord pitch's `note_off` at that onset plus `duration * 240` ticks. -/
theorem round_trip_timing (events : List ClefEvent)
    (hwf : ∀ e ∈ events,
      (e.type = EventType.note → e.notes ≠ []) ∧ e.type ≠ EventType.sustain)
    (k : Nat) (e : ClefEvent) (hk : events[k]? = some e)
    (hnote : e.type = EventType.note) (p : Nat) (hp : p ∈ e.notes) :
    (⟨.noteOn, p, 240 * durSum (events.take k)⟩ : AbsMsg) ∈
      absolutize 0 (write_track_from_final_events 0 events) ∧
    (⟨.noteOff, p, 240 * durSum (events.take k) + e.duration * 240⟩ : AbsMsg) ∈
      absolutize 0 (write_track_from_final_events 0 events) := by
  rw [absolutize_write_track events 0 0
    (fun x hx => (hwf x hx).1) (fun x hx => (hwf x hx).2)]
  have := mem_specNoteTimings events 0 k e hk hnote p hp
  simpa using this

theorem round_trip_timing_witness :
    (⟨.noteOn, 60, 240 * durSum ([⟨.rest, [], 1⟩, ⟨.note, [60], 2⟩].take 1)⟩ : AbsMsg) ∈
      absolutize 0 (write_track_from_final_events 0 [⟨.rest, [], 1⟩, ⟨.note, [60], 2⟩]) ∧
    (⟨.noteOff, 60, 240 * durSum ([⟨.rest, [], 1⟩, ⟨.note, [60], 2⟩].take 1) +
        (⟨.note, [60], 2⟩ : ClefEvent).duration * 240⟩ : AbsMsg) ∈
      absolutize 0 (write_track_from_final_events 0 [⟨.rest, [], 1⟩, ⟨.note, [60], 2⟩]) :=
  round_trip_timing [⟨.rest, [], 1⟩, ⟨.note, [60], 2⟩] (by decide) 1
    ⟨.note, [60], 2⟩ (by rfl) rfl 60 (by decide)

theorem checkTrack_false_iff (ticks_for_8th : ℚ) :
    ∀ (msgs : List Msg) (st : PostState),
      checkTrack ticks_for_8th st msgs = false ↔
        ∃ i m, msgs[i]? = some m ∧
          retrigger ticks_for_8th
            ((msgs.take i).foldl (postStep ticks_for_8th) st) m = true := by
  intro msgs
  induction msgs with
  | nil => intro st; simp [checkTrack]
  | cons msg msgs ih =>
    intro st
    rw [checkTrack]
    by_cases hr : retrigger ticks_for_8th st msg = true
    · rw [if_pos hr]
      exact iff_of_true rfl ⟨0, msg, by simp, by simpa using hr⟩
    · rw [if_neg hr, ih]
      constructor
      · rintro ⟨i, m, hi, hre⟩
        exact ⟨i + 1, m, by simpa using hi, by simpa using hre⟩
      · rintro ⟨i, m, hi, hre⟩
        cases i with
        | zero =>
          simp only [List.getElem?_cons_zero, Option.some.injEq] at hi
          subst hi
          exact absurd (by simpa using hre) hr
        | succ i =>
          exact ⟨i, m, by simpa using hi, by simpa using hre⟩

theorem retrigger_true_iff (ticks_for_8th : ℚ) (st : PostState) (m : Msg) :
    retrigger ticks_for_8th st m = true ↔
      m.kind = MsgKind.noteOn ∧ 0 < m.velocity ∧
        ∃ t_off, st.last_note_off_time m.note = some t_off ∧
          ((st.absolute_time + m.time - t_off : Nat) : ℚ) < ticks_for_8th := by
  cases hk : m.kind with
  | noteOn =>
    simp only [retrigger, hk]
    by_cases hv : 0 < m.velocity
    · rw [if_pos hv]
      cases hl : st.last_note_off_time m.note with
      | none => simp [hl, hv]
      | some t_off => simp [hl, hv]
    · rw [if_neg hv]
      simp [hv]
  | noteOff => simp [retrigger, hk]
  | meta => simp [retrigger, hk]

/-- C7: on a readable file, the post validator returns `false` exactly when
some track contains a `note_on` (positive velocity) whose pitch has a
recorded short-held release (as tracked by the replay state) less than
`ticks_per_beat / 2` ticks before the new onset; and a structural read
failure yields `false` rather than an exception. -/
theorem post_validation_characterisation :
    (∀ mid : MidiFileModel,
      (validate_midi_post_creation (Except.ok mid) = false ↔
        ∃ track ∈ mid.tracks, ∃ i m, track[i]? = some m ∧
          m.kind = MsgKind.noteOn ∧ 0 < m.velocity ∧
          ∃ t_off,
            ((track.take i).foldl (postStep ((mid.ticks_per_beat : ℚ) / 2))
                initPostState).last_note_off_time m.note = some t_off ∧
            ((((track.take i).foldl (postStep ((mid.ticks_per_beat : ℚ) / 2))
                initPostState).absolute_time + m.time - t_off : Nat) : ℚ) <
              (mid.ticks_per_beat : ℚ) / 2)) ∧
    (∀ e : String, validate_midi_post_creation (Except.error e) = false) := by
  constructor
  · intro mid
    simp only [validate_midi_post_creation, List.all_eq_false,
      Bool.not_eq_true, checkTrack_false_iff, retrigger_true_iff]
  · intro e
    rfl

theorem retrigger_of_no_off (half : ℚ) (st : PostState) (m : Msg)
    (hoff : ∀ q, st.last_note_off_time q = none) :
    retrigger half st m = false := by
  cases hk : m.kind with
  | noteOn => simp [retrigger, hk, hoff]
  | noteOff => simp [retrigger, hk]
  | meta => simp [retrigger, hk]

theorem checkTrack_ons (half : ℚ) :
    ∀ (qs : List Nat) (st : PostState) (k : List Msg),
      (∀ q, st.last_note_off_time q = none) →
      (∀ q t, st.notes_on q = some t → t ≤ st.absolute_time) →
      (∀ st' : PostState, (∀ q, st'.last_note_off_time q = none) →
        (∀ q t, st'.notes_on q = some t → t ≤ st'.absolute_time) →
        st'.absolute_time = st.absolute_time →
        checkTrack half st' k = true) →
      checkTrack half st (qs.map (fun q => ⟨MsgKind.noteOn, q, 80, 0⟩) ++ k) = true := by
  intro qs
  induction qs with
  | nil =>
    intro st k hoff hon hk
    simpa using hk st hoff hon rfl
  | cons q qs ih =>
    intro st k hoff hon hk
    rw [List.map_cons, List.cons_append, checkTrack,
      if_neg (by simp [retrigger_of_no_off half st _ hoff])]
    apply ih
    · intro p
      simp [postStep, hoff p]
    · intro p t hp
      simp only [postStep] at hp
      by_cases hpq : p = q
      · subst hpq
        simp at hp
        simp [postStep, ← hp]
      · simp [hpq] at hp
        have := hon p t hp
        simp [postStep]
        omega
    · intro st' hoff' hon' habs'
      apply hk st' hoff' hon'
      rw [habs']
      simp [postStep]

theorem checkTrack_offs (half : ℚ)
    (hbig : ∀ x : Nat, 240 ≤ x → ¬ ((x : ℚ) < half)) :
    ∀ (qs : List Nat) (st : PostState) (k : List Msg),
      (∀ q, st.last_note_off_time q = none) →
      (∀ q t, st.notes_on q = some t → t + 240 ≤ st.absolute_time) →
      (∀ st' : PostState, (∀ q, st'.last_note_off_time q = none) →
        (∀ q t, st'.notes_on q = some t → t ≤ st'.absolute_time) →
        st'.absolute_time = st.absolute_time →
        checkTrack half st' k = true) →
      checkTrack half st (qs.map (fun q => ⟨MsgKind.noteOff, q, 80, 0⟩) ++ k) = true := by
  intro qs
  induction qs with
  | nil =>
    intro st k hoff hon hk
    have h1 : ∀ q t, st.notes_on q = some t → t ≤ st.absolute_time := by
      intro q t ht
      have := hon q t ht
      omega
    simpa using hk st hoff h1 rfl
  | cons q qs ih =>
    intro st k hoff hon hk
    rw [List.map_cons, List.cons_append, checkTrack,
      if_neg (by simp [retrigger_of_no_off half st _ hoff])]
    simp only [postStep]
    cases hq : st.notes_on q with
    | none =>
      apply ih
      · intro p
        simp [postOff, hq, hoff p]
      · intro p t hp
        simp only [postOff, hq] at hp
        have := hon p t hp
        simp [postOff, hq]
        omega
      · intro st' hoff' hon' habs'
        apply hk st' hoff' hon'
        rw [habs']
        simp [postOff, hq]
    | some t_on =>
      have hdur : 240 ≤ st.absolute_time + 0 - t_on := by
        have := hon q t_on hq
        omega
      apply ih
      · intro p
        simp only [postOff, hq]
        rw [if_neg (hbig _ hdur)]
        exact hoff p
      · intro p t hp
        simp only [postOff, hq] at hp
        by_cases hpq : p = q
        · subst hpq
          simp at hp
        · simp [hpq] at hp
          have := hon p t hp
          simp [postOff, hq]
          omega
      · intro st' hoff' hon' habs'
        apply hk st' hoff' hon'
        rw [habs']
        simp [postOff, hq]

theorem checkTrack_write_track (half : ℚ)
    (hbig : ∀ x : Nat, 240 ≤ x → ¬ ((x : ℚ) < half)) :
    ∀ (events : List ClefEvent) (st : PostState) (p : Nat),
      (∀ e ∈ events, e.type = EventType.note → e.notes ≠ [] ∧ 1 ≤ e.duration) →
      (∀ q, st.last_note_off_time q = none) →
      (∀ q t, st.notes_on q = some t → t ≤ st.absolute_time) →
      checkTrack half st (write_track_from_final_events p events) = true := by
  intro events
  induction events with
  | nil =>
    intro st p _ _ _
    simp [write_track_from_final_events, checkTrack]
  | cons e rest ih =>
    intro st p hwf hoff hon
    have hwfrest : ∀ x ∈ rest, x.type = EventType.note → x.notes ≠ [] ∧ 1 ≤ x.duration :=
      fun x hx => hwf x (by simp [hx])
    cases htype : e.type with
    | sustain =>
      rw [write_track_from_final_events]
      simp only [htype]
      exact ih st p hwfrest hoff hon
    | rest =>
      rw [write_track_from_final_events]
      simp only [htype]
      exact ih st _ hwfrest hoff hon
    | note =>
      cases hn : e.notes with
      | nil => exact absurd hn (hwf e (by simp) htype).1
      | cons n ns =>
        have hdur1 : 1 ≤ e.duration := (hwf e (by simp) htype).2
        have hD : 240 ≤ e.duration * TICKS_PER_8TH_NOTE := by
          simp only [TICKS_PER_8TH_NOTE]
          omega
        rw [write_track_from_final_events]
        simp only [htype, hn]
        rw [checkTrack, if_neg (by simp [retrigger_of_no_off half st _ hoff])]
        apply checkTrack_ons
        · intro q
          simp [postStep, hoff q]
        · intro q t hq
          simp only [postStep] at hq
          by_cases hqn : q = n
          · subst hqn
            simp at hq
            simp [postStep, ← hq]
          · simp [hqn] at hq
            have := hon q t hq
            simp [postStep]
            omega
        · intro st1 hoff1 hon1 habs1
          rw [checkTrack, if_neg (by simp [retrigger_of_no_off half st1 _ hoff1])]
          simp only [postStep]
          cases hq : st1.notes_on n with
          | none =>
            apply checkTrack_offs half hbig
            · intro q
              simp [postOff, hq, hoff1 q]
            · intro q t hp
              simp only [postOff, hq] at hp
              have := hon1 q t hp
              simp [postOff, hq]
              omega
            · intro st2 hoff2 hon2 habs2
              exact ih st2 0 hwfrest hoff2 hon2
          | some t_on =>
            have hton : t_on ≤ st1.absolute_time := hon1 n t_on hq
            have hshort : 240 ≤ st1.absolute_time + e.duration * TICKS_PER_8TH_NOTE - t_on := by
              omega
            apply checkTrack_offs half hbig
            · intro q
              simp only [postOff, hq]
              rw [if_neg (hbig _ hshort)]
              exact hoff1 q
            · intro q t hp
              simp only [postOff, hq] at hp
              by_cases hqn : q = n
              · subst hqn
                simp at hp
              · simp [hqn] at hp
                have := hon1 q t hp
                simp [postOff, hq]
                omega
            · intro st2 hoff2 hon2 habs2
              exact ih st2 0 hwfrest hoff2 hon2

theorem merge_step_wf (acc : List ClefEvent) (e : ClefEvent)
    (hacc : ∀ x ∈ acc, x.type = EventType.note → x.notes ≠ [] ∧ 1 ≤ x.duration)
    (he : e.type = EventType.note → e.notes ≠ [] ∧ 1 ≤ e.duration) :
    ∀ x ∈ merge_step acc e, x.type = EventType.note → x.notes ≠ [] ∧ 1 ≤ x.duration := by
  cases htype : e.type with
  | note =>
    intro x hx
    simp only [merge_step, htype] at hx
    rcases List.mem_append.mp hx with h | h
    · exact hacc x h
    · simp at h
      subst h
      exact fun _ => he htype
  | sustain =>
    cases hl : acc.getLast? with
    | none =>
      have hstep : merge_step acc e = acc ++ [⟨EventType.rest, [], e.duration⟩] := by
        simp [merge_step, htype, hl]
      rw [hstep]
      intro x hx
      rcases List.mem_append.mp hx with h | h
      · exact hacc x h
      · simp at h
        subst h
        intro hc
        exact absurd hc (by simp)
    | some last =>
      by_cases hlt : last.type = EventType.note
      · have hstep : merge_step acc e =
            acc.dropLast ++ [{ last with duration := last.duration + e.duration }] := by
          simp [merge_step, htype, hl, hlt]
        rw [hstep]
        intro x hx
        rcases List.mem_append.mp hx with h | h
        · refine hacc x ?_
          have hdec := getLast?_decomp hl
          rw [← hdec]
          exact List.mem_append_left _ h
        · simp at h
          subst h
          intro _
          have hmem : last ∈ acc := by
            have hdec := getLast?_decomp hl
            rw [← hdec]
            simp
          have hwf := hacc last hmem hlt
          refine ⟨hwf.1, ?_⟩
          have := hwf.2
          simp
          omega
      · have hstep : merge_step acc e = acc ++ [⟨EventType.rest, [], e.duration⟩] := by
          simp [merge_step, htype, hl, hlt]
        rw [hstep]
        intro x hx
        rcases List.mem_append.mp hx with h | h
        · exact hacc x h
        · simp at h
          subst h
          intro hc
          exact absurd hc (by simp)
  | rest =>
    intro x hx
    simp only [merge_step, htype] at hx
    exact hacc x hx

theorem merge_foldl_wf :
    ∀ (raw acc : List ClefEvent),
      (∀ x ∈ acc, x.type = EventType.note → x.notes ≠ [] ∧ 1 ≤ x.duration) →
      (∀ e ∈ raw, e.type = EventType.note → e.notes ≠ [] ∧ 1 ≤ e.duration) →
      ∀ x ∈ raw.foldl merge_step acc,
        x.type = EventType.note → x.notes ≠ [] ∧ 1 ≤ x.duration := by
  intro raw
  induction raw with
  | nil => intro acc hacc _; simpa using hacc
  | cons e raw ih =>
    intro acc hacc hraw
    rw [List.foldl_cons]
    exact ih _ (merge_step_wf acc e hacc (hraw e (by simp)))
      (fun x hx => hraw x (by simp [hx]))

theorem split_raw_wf (parsed_events : List DecodedEvent)
    (hdur : ∀ e ∈ parsed_events, 1 ≤ e.duration) :
    (∀ x ∈ (split_raw_events parsed_events).1,
      x.type = EventType.note → x.notes ≠ [] ∧ 1 ≤ x.duration) ∧
    (∀ x ∈ (split_raw_events parsed_events).2,
      x.type = EventType.note → x.notes ≠ [] ∧ 1 ≤ x.duration) := by
  constructor
  · intro x hx
    simp only [split_raw_events, List.mem_map] at hx
    obtain ⟨ev, hev, hx⟩ := hx
    subst hx
    intro htype
    by_cases hf : ev.notes.filter (fun note => 60 ≤ note) = []
    · simp [hf] at htype
    · exact ⟨by simpa using hf, hdur ev hev⟩
  · intro x hx
    simp only [split_raw_events, List.mem_map] at hx
    obtain ⟨ev, hev, hx⟩ := hx
    subst hx
    intro htype
    by_cases hf : ev.notes.filter (fun note => note < 60) = []
    · simp [hf] at htype
    · exact ⟨by simpa using hf, hdur ev hev⟩

theorem not_lt_half480 (x : Nat) (h : 240 ≤ x) :
    ¬ ((x : ℚ) < ((480 : Nat) : ℚ) / 2) := by
  have h2 : ((480 : Nat) : ℚ) / 2 = 240 := by norm_num
  rw [h2]
  intro hc
  have : x < 240 := by exact_mod_cast hc
  omega

/-- C8: the file content built by `create_midi_file` always passes
`validate_midi_post_creation`: every emitted note is held for
`duration * 240 ≥ 240` ticks = half a beat at 480 ticks per beat, so no
note-off is ever recorded as short-held and the re-trigger failure branch
is unreachable on the encoder's own output. -/
theorem encoder_output_passes_post_validation
    (parsed_events : List DecodedEvent)
    (hdur : ∀ e ∈ parsed_events, 1 ≤ e.duration) :
    validate_midi_post_creation
      (Except.ok (create_midi_file_model parsed_events)) = true := by
  have hsplit := split_raw_wf parsed_events hdur
  have htreble := merge_foldl_wf (split_raw_events parsed_events).1 []
    (by simp) hsplit.1
  have hbass := merge_foldl_wf (split_raw_events parsed_events).2 []
    (by simp) hsplit.2
  simp only [validate_midi_post_creation, create_midi_file_model,
    List.all_cons, List.all_nil, Bool.and_true]
  have hinit_off : ∀ q, initPostState.last_note_off_time q = none := fun _ => rfl
  have hinit_on : ∀ q t, initPostState.notes_on q = some t →
      t ≤ initPostState.absolute_time := by
    intro q t h
    simp [initPostState] at h
  rw [Bool.and_eq_true]
  constructor
  · rw [checkTrack, if_neg (by
      simp [retrigger_of_no_off _ initPostState _ hinit_off])]
    apply checkTrack_write_track _ not_lt_half480 _ _ _
      (fun x hx => htreble x (by simpa [merge_sustain_events] using hx))
    · intro q
      simp [postStep, tempoMsg, initPostState]
    · intro q t h
      simp [postStep, tempoMsg, initPostState] at h
  · apply checkTrack_write_track _ not_lt_half480 _ _ _
      (fun x hx => hbass x (by simpa [merge_sustain_events] using hx))
    · exact hinit_off
    · exact hinit_on

theorem encoder_output_passes_post_validation_witness :
    validate_midi_post_creation
      (Except.ok (create_midi_file_model [⟨[60], 1⟩])) = true :=
  encoder_output_passes_post_validation [⟨[60], 1⟩] (by decide)
